import Mathlib

/-!
Verification of the grid-based A* path search (`src/tools/astar.py`) and the
nearest-bin assignment procedure (`src/entities/doors.py`) of the
Bin-Distance-Py repository.

The Python code is embedded shallowly:

* cells are integer pairs `(row, col)`;
* the numpy passability grid is a `Grid` structure whose reads follow numpy's
  indexing semantics (negative indices in range wrap, out-of-range indices
  raise `IndexError`);
* the float movement costs `1.0` and `np.sqrt(2)` are modelled by their exact
  real values: a cost is a pair `(u, d)` standing for `u + d·√2`, and the
  float comparisons of the source are decided exactly by integer sign tests
  that are proved against the real-valued semantics;
* Python exceptions are modelled with `Except String`;
* the `while` loop of `find_path` runs on fuel that provably suffices.
-/

namespace BinDist

/-- A grid cell, written `(row, col)` exactly as the `(row, col)` tuples of the
source. -/
abbrev Cell := Int × Int

/-- The passability grid: a numpy array of shape `rows × cols` where a stored
`0` marks a passable cell and any non-zero value marks an obstacle
(`src/tools/astar.py`, constructor comment).  `cell` gives the stored value at
a non-negative in-range index pair. -/
structure Grid where
  rows : Nat
  cols : Nat
  cell : Int → Int → Nat

/-- In-bounds predicate, matching the bounds test
`0 <= new_row < self.rows and 0 <= new_col < self.cols` of
`Astar.get_neighbors`. -/
def Grid.InBounds (g : Grid) (c : Cell) : Prop :=
  0 ≤ c.1 ∧ c.1 < (g.rows : Int) ∧ 0 ≤ c.2 ∧ c.2 < (g.cols : Int)

instance (g : Grid) (c : Cell) : Decidable (g.InBounds c) :=
  inferInstanceAs (Decidable (0 ≤ c.1 ∧ c.1 < (g.rows : Int) ∧ 0 ≤ c.2 ∧ c.2 < (g.cols : Int)))

/-- Reading `self.grid[r, c]` with numpy's indexing semantics: an index in
`[-rows, rows)` is accepted, a negative index wrapping to `r + rows`; anything
outside that range raises `IndexError`. -/
def Grid.read (g : Grid) (r c : Int) : Except String Nat :=
  if -(g.rows : Int) ≤ r ∧ r < (g.rows : Int) ∧ -(g.cols : Int) ≤ c ∧ c < (g.cols : Int) then
    .ok (g.cell (if r < 0 then r + g.rows else r) (if c < 0 then c + g.cols else c))
  else
    .error "IndexError"

/-- A cell is passable when it is in bounds and stores the value `0`;
out-of-bounds cells are impassable. -/
def Grid.Passable (g : Grid) (c : Cell) : Prop :=
  g.InBounds c ∧ g.cell c.1 c.2 = 0

instance (g : Grid) (c : Cell) : Decidable (g.Passable c) :=
  inferInstanceAs (Decidable (g.InBounds c ∧ g.cell c.1 c.2 = 0))

/-- The eight movement directions of `Astar.get_neighbors`, in source order:
the four cardinal directions first, then the four diagonals. -/
def directions : List (Int × Int) :=
  [(-1, 0), (1, 0), (0, -1), (0, 1), (-1, -1), (-1, 1), (1, -1), (1, 1)]

/-- `Astar.get_neighbors`: the neighbours of `node` among the eight king-move
directions that are in bounds and passable, in source order. -/
def Grid.getNeighbors (g : Grid) (node : Cell) : List Cell :=
  directions.filterMap fun dd =>
    let n : Cell := (node.1 + dd.1, node.2 + dd.2)
    if 0 ≤ n.1 ∧ n.1 < (g.rows : Int) ∧ 0 ≤ n.2 ∧ n.2 < (g.cols : Int) ∧ g.cell n.1 n.2 = 0 then
      some n
    else
      none

/-- Exact movement-cost values: `u + d·√2` for `u` cardinal steps and `d`
diagonal steps.  The source accumulates Python floats; we model the intended
exact real values. -/
structure GCost where
  u : Nat
  d : Nat
deriving DecidableEq, Repr

/-- Real value of a cost. -/
noncomputable def GCost.val (a : GCost) : ℝ := a.u + a.d * Real.sqrt 2

/-- Cost addition (the float addition `g_score[current] + movement_cost`). -/
def GCost.add (a b : GCost) : GCost := ⟨a.u + b.u, a.d + b.d⟩

/-- Sign of `a + b·√2`, computed on integers. -/
def sgn2 (a b : Int) : Ordering :=
  if 0 ≤ a then
    if 0 ≤ b then (if a = 0 ∧ b = 0 then .eq else .gt)
    else
      (if a * a < 2 * (b * b) then .lt else if a * a = 2 * (b * b) then .eq else .gt)
  else
    if b ≤ 0 then .lt
    else
      (if a * a < 2 * (b * b) then .gt else if a * a = 2 * (b * b) then .eq else .lt)

/-- Exact decision of the float comparison
`tentative_g < self.g_score[neighbor]`. -/
def GCost.ltB (a b : GCost) : Bool :=
  sgn2 ((a.u : Int) - b.u) ((a.d : Int) - b.d) == Ordering.lt

/-- The squared Euclidean distance between two cells: the radicand of the
Euclidean heuristic `float(np.linalg.norm(np.array(node) - np.array(goal)))`. -/
def hsqOf (node goal : Cell) : Nat :=
  ((node.1 - goal.1) ^ 2 + (node.2 - goal.2) ^ 2).toNat

/-- An f-score `g + h`, of exact real value `g.val + √hsq`. -/
structure FVal where
  g : GCost
  hsq : Nat
deriving DecidableEq, Repr

/-- Real value of an f-score. -/
noncomputable def FVal.val (v : FVal) : ℝ := v.g.val + Real.sqrt v.hsq

/-- Sign of `A + B·√2 + 2·√M` for integers `A B` and a natural `M`. -/
def sgn3 (A B : Int) (M : Nat) : Ordering :=
  match sgn2 A B with
  | .gt => .gt
  | .eq => if M = 0 then .eq else .gt
  | .lt => sgn2 (4 * (M : Int) - A * A - 2 * (B * B)) (-(2 * (A * B)))

/-- Sign of `a + b·√2 + √h1 - √h2` for integers `a b` and naturals `h1 h2`. -/
def sgnf (a b : Int) (h1 h2 : Nat) : Ordering :=
  match sgn2 a b, (if h1 < h2 then Ordering.lt else if h1 = h2 then .eq else .gt) with
  | .eq, o => o
  | s, .eq => s
  | .gt, .gt => .gt
  | .lt, .lt => .lt
  | .gt, .lt => sgn3 (a * a + 2 * (b * b) - h1 - h2) (2 * (a * b)) (h1 * h2)
  | .lt, .gt =>
    match sgn3 (a * a + 2 * (b * b) - h1 - h2) (2 * (a * b)) (h1 * h2) with
    | .lt => .gt
    | .eq => .eq
    | .gt => .lt

/-- Exact comparison of two f-scores, deciding the float comparison `heapq`
performs on the first tuple component. -/
def FVal.cmp (v w : FVal) : Ordering :=
  sgnf ((v.g.u : Int) - w.g.u) ((v.g.d : Int) - w.g.d) v.hsq w.hsq

/-- Lexicographic comparison of cells, as Python compares `(row, col)` integer
tuples. -/
def cellLtB (a b : Cell) : Bool :=
  a.1 < b.1 || (a.1 == b.1 && a.2 < b.2)

/-- Comparison of heap entries `(f_score, node)`, matching Python tuple
comparison: first the float `f_score`, then the node tuple. -/
def entryLtB (x y : FVal × Cell) : Bool :=
  match FVal.cmp x.1 y.1 with
  | .lt => true
  | .gt => false
  | .eq => cellLtB x.2 y.2

/-- Popping the least entry of the open set.  `heapq.heappop` returns the
least element under Python tuple comparison; no two live entries share a node,
so the least entry is unique and the heap's internal layout is irrelevant. -/
def popMin : List (FVal × Cell) → Option ((FVal × Cell) × List (FVal × Cell))
  | [] => none
  | x :: xs =>
    match popMin xs with
    | none => some (x, [])
    | some (m, rest) => if entryLtB m x then some (m, x :: rest) else some (x, xs)

/-- The mutable search state of an `Astar` object: the open-set heap, the
`open_set_hash`, the `closed_set`, and the `came_from` / `g_score` / `f_score`
dictionaries. -/
structure AState where
  openH : List (FVal × Cell)
  hash : Finset Cell
  closed : Finset Cell
  came : Cell → Option Cell
  gmap : Cell → Option GCost
  fmap : Cell → Option FVal

/-- The movement cost between two cells: `np.sqrt(2)` when both coordinates
change by exactly one, `1.0` otherwise (`Astar.find_path`). -/
def stepCost (a b : Cell) : GCost :=
  if (b.1 - a.1).natAbs = 1 ∧ (b.2 - a.2).natAbs = 1 then ⟨0, 1⟩ else ⟨1, 0⟩

/-- One relaxation of one neighbour inside the `for neighbor in ...` loop of
`Astar.find_path`. -/
def relaxNbr (goal cur : Cell) (gcur : GCost) (st : AState) (n : Cell) : AState :=
  if n ∈ st.closed then st
  else
    let tg := gcur.add (stepCost cur n)
    let improve := match st.gmap n with
      | none => true
      | some gn => GCost.ltB tg gn
    if improve then
      let fv : FVal := ⟨tg, hsqOf n goal⟩
      let st1 : AState :=
        { st with
          came := fun c => if c = n then some cur else st.came c
          gmap := fun c => if c = n then some tg else st.gmap c
          fmap := fun c => if c = n then some fv else st.fmap c }
      if n ∈ st1.hash then st1
      else { st1 with openH := st1.openH ++ [(fv, n)], hash := insert n st1.hash }
    else st

/-- The whole neighbour loop of one expansion, including the
`self.g_score[current]` dictionary lookup (a missing key would raise
`KeyError`). -/
def relaxAll (grid : Grid) (goal cur : Cell) (st : AState) : Except String AState :=
  match st.gmap cur with
  | none => .error "KeyError"
  | some gcur => .ok ((grid.getNeighbors cur).foldl (relaxNbr goal cur gcur) st)

/-- The backward walk of `Astar.reconstruct_path`: follow `came_from` from the
goal, then put the start in front of the reversed chain.  `fuel` bounds the
walk; exhaustion models a non-terminating walk and never occurs in reachable
states. -/
def reconstructAux (came : Cell → Option Cell) (start : Cell) :
    Nat → Cell → List Cell → Except String (List Cell)
  | 0, _, _ => .error "NonTermination"
  | fuel + 1, cur, acc =>
    match came cur with
    | some p => reconstructAux came start fuel p (cur :: acc)
    | none => .ok (start :: acc)

/-- `Astar.reconstruct_path` on the final state. -/
def reconstructPath (st : AState) (start goal : Cell) : Except String (List Cell) :=
  reconstructAux st.came start (st.closed.card + 1) goal []

/-- The `while self.open_set:` loop of `Astar.find_path`.  The result is `none`
when the fuel runs out (shown never to happen), otherwise the loop's outcome:
a found path, the no-path result `None`, or a raised error. -/
def astarLoop (grid : Grid) (start goal : Cell) :
    Nat → AState → Option (Except String (Option (List Cell)))
  | 0, _ => none
  | fuel + 1, st =>
    match popMin st.openH with
    | none => some (.ok none)
    | some (e, rest) =>
      let cur := e.2
      if cur ∈ st.hash then
        let st1 : AState := { st with openH := rest, hash := st.hash.erase cur }
        if cur ∈ st1.closed then astarLoop grid start goal fuel st1
        else
          let st2 : AState := { st1 with closed := insert cur st1.closed }
          if cur = goal then some ((reconstructPath st2 start goal).map some)
          else
            match relaxAll grid goal cur st2 with
            | .error msg => some (.error msg)
            | .ok st3 => astarLoop grid start goal fuel st3
      else some (.error "KeyError")

/-- The state built by `Astar.__init__`: `g_score[start] = 0`,
`f_score[start] = heuristic(start, goal)`, the start pushed onto the heap and
recorded in the hash. -/
def initState (start goal : Cell) : AState :=
  let f0 : FVal := ⟨⟨0, 0⟩, hsqOf start goal⟩
  { openH := [(f0, start)]
    hash := {start}
    closed := ∅
    came := fun _ => none
    gmap := fun c => if c = start then some ⟨0, 0⟩ else none
    fmap := fun c => if c = start then some f0 else none }

/-- Fuel that always suffices for the search loop: one unit per heap pop, and
each cell is pushed at most once. -/
def astarFuel (grid : Grid) : Nat := grid.rows * grid.cols + 2

/-- `Astar.find_path` (also the convenience wrapper `find_shortest_path`):
check the two endpoints against the grid, then run the A* loop. -/
def findPath (grid : Grid) (start goal : Cell) : Except String (Option (List Cell)) :=
  match grid.read start.1 start.2 with
  | .error e => .error e
  | .ok v =>
    if v ≠ 0 then .ok none
    else
      match grid.read goal.1 goal.2 with
      | .error e => .error e
      | .ok w =>
        if w ≠ 0 then .ok none
        else
          match astarLoop grid start goal (astarFuel grid) (initState start goal) with
          | none => .error "Fuel"
          | some r => r

/-- The hard-coded heuristic selector: the local variable `i = 9` at the top of
`Astar.heuristic`. -/
def heuristicSelector : Int := 9

/-- `Astar.heuristic`: the `if i == 0 / elif i == 1 / elif i == 2 / else`
chain over the hard-coded selector, with the Manhattan, diagonal (octile),
Chebyshev and Euclidean branches in source order. -/
noncomputable def heuristic (node goal : Cell) : ℝ :=
  if heuristicSelector = 0 then
    |((node.1 - goal.1 : Int) : ℝ)| + |((node.2 - goal.2 : Int) : ℝ)|
  else if heuristicSelector = 1 then
    max |((node.1 - goal.1 : Int) : ℝ)| |((node.2 - goal.2 : Int) : ℝ)| +
      (Real.sqrt 2 - 1) * min |((node.1 - goal.1 : Int) : ℝ)| |((node.2 - goal.2 : Int) : ℝ)|
  else if heuristicSelector = 2 then
    max |((node.1 - goal.1 : Int) : ℝ)| |((node.2 - goal.2 : Int) : ℝ)|
  else
    Real.sqrt (((node.1 - goal.1 : Int) : ℝ) ^ 2 + ((node.2 - goal.2 : Int) : ℝ) ^ 2)

/-- The Euclidean branch of the heuristic on its own:
`float(np.linalg.norm(np.array(node) - np.array(goal)))`. -/
noncomputable def euclideanDistance (node goal : Cell) : ℝ :=
  Real.sqrt (((node.1 - goal.1 : Int) : ℝ) ^ 2 + ((node.2 - goal.2 : Int) : ℝ) ^ 2)

/-- A positioned entity of the world.  Modelled from the spec: the base module
`entities/core.py` is not among the sources; per the spec's data model and the
constructor call `super().__init__(number, x, y, type="door")`, an entity has
an integer identity, a fixed `(x, y)` position, and a kind tag. -/
structure Entity where
  number : Int
  x : Int
  y : Int
  type : String
deriving DecidableEq, Repr

/-- A `Door`: identity, position, and the two mutable assignment fields, both
initially `None` (`Door.__init__`). -/
structure Door where
  number : Int
  x : Int
  y : Int
  assigned_bin : Option Int
  path_to_bin : Option (List Cell)
deriving DecidableEq, Repr

/-- `Door.__init__`: a freshly constructed door with both assignment fields
absent. -/
def Door.mkFresh (number x y : Int) : Door :=
  ⟨number, x, y, none, none⟩

/-- `Door.assign_bin`: raise `ValueError` unless the entity is a bin, else set
`assigned_bin` (and only `assigned_bin`). -/
def Door.assign_bin (door : Door) (ent : Entity) : Except String Door :=
  if ent.type ≠ "bin" then .error "ValueError"
  else .ok { door with assigned_bin := some ent.number }

/-- The `for bin_entity in bins:` loop of `Door.find_closest_bin`, carrying the
current best candidate and its path (`closest_bin`, `shortest_path`; the
tracked `shortest_distance`, initially `float('inf')`, always equals the
length of `shortest_path` once one exists). -/
def findClosestBinLoop (doorPos : Cell) (grid : Grid) :
    List Entity → Option Entity × Option (List Cell) →
    Except String (Option Entity × Option (List Cell))
  | [], acc => .ok acc
  | b :: rest, (cb, sp) =>
    match findPath grid doorPos (b.y, b.x) with
    | .error e => .error e
    | .ok none => findClosestBinLoop doorPos grid rest (cb, sp)
    | .ok (some p) =>
      let better := match sp with
        | none => true
        | some q => p.length < q.length
      if better then findClosestBinLoop doorPos grid rest (some b, some p)
      else findClosestBinLoop doorPos grid rest (cb, sp)

/-- `Door.find_closest_bin`: on an empty bin list return `None` at once;
otherwise scan all bins and, if a best candidate exists, write both door
fields and return the bin, else leave the door untouched and return `None`. -/
def Door.find_closest_bin (door : Door) (bins : List Entity) (grid : Grid) :
    Except String (Door × Option Entity) :=
  if bins.isEmpty then .ok (door, none)
  else
    match findClosestBinLoop (door.y, door.x) grid bins (none, none) with
    | .error e => .error e
    | .ok (some b, some p) =>
      .ok ({ door with assigned_bin := some b.number, path_to_bin := some p }, some b)
    | .ok _ => .ok (door, none)


/-- Convenience constructor turning a list of rows into a `Grid`; used only to
state concrete scenarios. -/
def gridOf (rows : List (List Nat)) : Grid :=
  { rows := rows.length
    cols := (rows.headD []).length
    cell := fun r c => (rows.getD r.toNat []).getD c.toNat 1 }

/-- A fully passable 3×3 grid (the scenario grid of the spec's testable
properties). -/
def gOpen3 : Grid := gridOf [[0, 0, 0], [0, 0, 0], [0, 0, 0]]

/-- A 2×2 grid whose anti-diagonal cells are obstacles, used to exhibit corner
cutting. -/
def gCut : Grid := gridOf [[0, 255], [255, 0]]

/-- A fully passable 1×1 grid, used to exhibit numpy index wrapping. -/
def gOne : Grid := gridOf [[0]]

/-- A passable 1×3 corridor. -/
def demoGrid : Grid := gridOf [[0, 0, 0]]

/-- A 1×3 corridor whose middle cell is an obstacle: its two ends are mutually
unreachable. -/
def gBlocked : Grid := gridOf [[0, 255, 0]]

/-- A bin entity sitting at pixel position `x = 2, y = 0`, i.e. grid cell
`(0, 2)`. -/
def demoBin : Entity := ⟨1, 2, 0, "bin"⟩

/-- A door that holds an assignment produced by an actual prior resolution
pass (`find_closest_bin` over `demoGrid`). -/
def doorAssigned : Door :=
  match (Door.mkFresh 7 0 0).find_closest_bin [demoBin] demoGrid with
  | .ok (d, _) => d
  | .error _ => Door.mkFresh 7 0 0

/-- A second bin entity at grid cell `(0, 2)`; that cell is passable but
unreachable on `gBlocked`. -/
def unreachableBin : Entity := ⟨9, 2, 0, "bin"⟩

/-- A bin entity used with `assign_bin`. -/
def binEnt : Entity := ⟨2, 5, 5, "bin"⟩

/-- The door-state invariant claimed by the spec's data model: `assigned_bin`
is present iff `path_to_bin` is present and non-empty. -/
def DoorConsistent (d : Door) : Prop :=
  d.assigned_bin.isSome ↔ ∃ p, d.path_to_bin = some p ∧ p ≠ []

/-- One resolution pass applied to a door: run `find_closest_bin` and keep the
updated door (a raised exception leaves the door untouched, since the source
mutates the door only after the scan completes). -/
def applyResolve (d : Door) (op : List Entity × Grid) : Door :=
  match d.find_closest_bin op.1 op.2 with
  | .ok (d', _) => d'
  | .error _ => d

-- ### C7
/-- C7: the heuristic's hard-coded selector `i = 9` always takes the Euclidean
branch, so the heuristic evaluates to the Euclidean distance for every input,
and the Manhattan, diagonal and Chebyshev branches are unreachable. -/
theorem heuristic_always_euclidean (node goal : Cell) :
    heuristic node goal = euclideanDistance node goal ∧
    heuristicSelector ≠ 0 ∧ heuristicSelector ≠ 1 ∧ heuristicSelector ≠ 2 := by
  refine ⟨?_, by decide, by decide, by decide⟩
  simp [heuristic, euclideanDistance, heuristicSelector]

-- ### C9 (corrected)
/-- C9 counterexample: invoking `find_closest_bin` with an empty bin sequence
on a door that already holds an assignment returns the absent result but does
not leave `assigned_bin` and `path_to_bin` absent, contrary to the claim. -/
theorem find_closest_bin_empty_keeps_assignment :
    doorAssigned.find_closest_bin [] demoGrid = .ok (doorAssigned, none) ∧
    doorAssigned.assigned_bin = some 1 ∧
    doorAssigned.path_to_bin = some [(0, 0), (0, 1), (0, 2)] :=
  ⟨rfl, rfl, rfl⟩

/-- C9 amended: invoking `find_closest_bin` with an empty bin sequence returns
the absent result, leaves the door entirely unchanged (in particular a door
whose fields are absent keeps them absent), and raises no exception. -/
theorem find_closest_bin_empty_bins (door : Door) (grid : Grid) :
    door.find_closest_bin [] grid = .ok (door, none) := rfl

-- ### C5 (corrected)
/-- C5 counterexample: re-invoking `find_closest_bin` on an already assigned
door with no reachable bin does not reset the fields to the unassigned state;
the stale assignment survives. -/
theorem reinvoke_failure_keeps_stale_assignment :
    doorAssigned.find_closest_bin [unreachableBin] gBlocked = .ok (doorAssigned, none) ∧
    doorAssigned.assigned_bin = some 1 ∧
    doorAssigned.path_to_bin ≠ none := by
  refine ⟨rfl, rfl, ?_⟩
  intro h
  exact absurd h (by decide)

/-- C5 amended: a re-invocation either succeeds and overwrites both fields
wholesale, or fails and leaves both fields untouched; the two fields are never
partially updated with respect to each other. -/
theorem find_closest_bin_overwrites_or_preserves (door : Door) (bins : List Entity)
    (grid : Grid) (d' : Door) (r : Option Entity)
    (h : door.find_closest_bin bins grid = .ok (d', r)) :
    (∃ b p, r = some b ∧
      d' = { door with assigned_bin := some b.number, path_to_bin := some p }) ∨
    (r = none ∧ d' = door) := by
  unfold Door.find_closest_bin at h
  split at h
  · cases h
    exact Or.inr ⟨rfl, rfl⟩
  · split at h
    · cases h
    · rename_i b p _
      cases h
      exact Or.inl ⟨b, p, rfl, rfl⟩
    · cases h
      exact Or.inr ⟨rfl, rfl⟩

/-- C5 amended, witness at a concrete successful call. -/
theorem find_closest_bin_overwrites_or_preserves_witness :
    (Door.mkFresh 7 0 0).find_closest_bin [demoBin] demoGrid = .ok (doorAssigned, some demoBin) ∧
    ((∃ b p, (some demoBin : Option Entity) = some b ∧
        doorAssigned = { Door.mkFresh 7 0 0 with
          assigned_bin := some b.number, path_to_bin := some p }) ∨
     ((some demoBin : Option Entity) = none ∧ doorAssigned = Door.mkFresh 7 0 0)) :=
  ⟨rfl, find_closest_bin_overwrites_or_preserves (Door.mkFresh 7 0 0) [demoBin] demoGrid
    doorAssigned (some demoBin) rfl⟩

-- ### C4 counterexample
/-- C4 counterexample: the public operation `assign_bin`, applied to a freshly
constructed door, sets `assigned_bin` without setting `path_to_bin`, breaking
the claimed invariant after a one-operation sequence. -/
theorem assign_bin_breaks_invariant :
    (Door.mkFresh 1 0 0).assign_bin binEnt = .ok ⟨1, 0, 0, some 2, none⟩ ∧
    ¬ DoorConsistent ⟨1, 0, 0, some 2, none⟩ := by
  refine ⟨rfl, ?_⟩
  intro h
  rcases h.mp rfl with ⟨p, hp, -⟩
  cases hp

-- ### C10
/-- Characterisation of `get_neighbors` membership: a cell is produced exactly
when its offset from the node is one of the eight directions and the cell is
in bounds and passable. -/
lemma mem_getNeighbors (g : Grid) (node c : Cell) :
    c ∈ g.getNeighbors node ↔
      ((c.1 - node.1, c.2 - node.2) ∈ directions ∧ g.Passable c) := by
  unfold Grid.getNeighbors
  rw [List.mem_filterMap]
  constructor
  · rintro ⟨dd, hdd, heq⟩
    dsimp only at heq
    by_cases hcond : 0 ≤ node.1 + dd.1 ∧ node.1 + dd.1 < (g.rows : Int) ∧
        0 ≤ node.2 + dd.2 ∧ node.2 + dd.2 < (g.cols : Int) ∧
        g.cell (node.1 + dd.1) (node.2 + dd.2) = 0
    · rw [if_pos hcond] at heq
      have hc := Option.some.inj heq
      subst hc
      constructor
      · have h1 : node.1 + dd.1 - node.1 = dd.1 := by ring
        have h2 : node.2 + dd.2 - node.2 = dd.2 := by ring
        simpa [h1, h2] using hdd
      · exact ⟨⟨hcond.1, hcond.2.1, hcond.2.2.1, hcond.2.2.2.1⟩, hcond.2.2.2.2⟩
    · rw [if_neg hcond] at heq
      cases heq
  · rintro ⟨hdd, ⟨hb1, hb2, hb3, hb4⟩, hc⟩
    refine ⟨(c.1 - node.1, c.2 - node.2), hdd, ?_⟩
    dsimp only
    have e1 : node.1 + (c.1 - node.1) = c.1 := by ring
    have e2 : node.2 + (c.2 - node.2) = c.2 := by ring
    rw [e1, e2, if_pos ⟨hb1, hb2, hb3, hb4, hc⟩]

/-- C10: a diagonally adjacent cell is a neighbour exactly when it is in
bounds and passable, with no condition on the two flanking cardinal cells; as
a consequence `find_path` can cut a corner, returning the diagonal path
`[(0,0), (1,1)]` between the two diagonally touching obstacles of `gCut`. -/
theorem diagonal_neighbors_ignore_flanking (g : Grid) (node : Cell) :
    ((node.1 - 1, node.2 - 1) ∈ g.getNeighbors node ↔ g.Passable (node.1 - 1, node.2 - 1)) ∧
    ((node.1 - 1, node.2 + 1) ∈ g.getNeighbors node ↔ g.Passable (node.1 - 1, node.2 + 1)) ∧
    ((node.1 + 1, node.2 - 1) ∈ g.getNeighbors node ↔ g.Passable (node.1 + 1, node.2 - 1)) ∧
    ((node.1 + 1, node.2 + 1) ∈ g.getNeighbors node ↔ g.Passable (node.1 + 1, node.2 + 1)) ∧
    findPath gCut (0, 0) (1, 1) = .ok (some [(0, 0), (1, 1)]) ∧
    ¬ gCut.Passable (0, 1) ∧ ¬ gCut.Passable (1, 0) := by
  refine ⟨?_, ?_, ?_, ?_, rfl, by decide, by decide⟩ <;>
  · rw [mem_getNeighbors]
    simp only [directions, List.mem_cons, List.not_mem_nil, or_false, Prod.mk.injEq]
    constructor
    · rintro ⟨-, h⟩
      exact h
    · intro h
      exact ⟨by omega, h⟩

-- ### C2
/-- Generalised specification of the scanning loop of `find_closest_bin`: if
the scan over `L`, started from accumulator `(cb, sp)`, ends with candidate
`rb` and path `rp`, then `rp` is no longer (in cells) than any path of a bin
of `L`, and either the accumulator was returned unchanged, or `rb` sits in `L`
with every earlier bin's path (and the accumulator path) strictly longer. -/
lemma findClosestBinLoop_spec (pos : Cell) (grid : Grid) :
    ∀ (L : List Entity) (cb : Option Entity) (sp : Option (List Cell))
      (rb : Entity) (rp : List Cell),
      findClosestBinLoop pos grid L (cb, sp) = .ok (some rb, some rp) →
      (∀ b' ∈ L, ∀ q, findPath grid pos (b'.y, b'.x) = .ok (some q) → rp.length ≤ q.length) ∧
      ((cb = some rb ∧ sp = some rp) ∨
       (∃ pre post, L = pre ++ rb :: post ∧
         findPath grid pos (rb.y, rb.x) = .ok (some rp) ∧
         (∀ p0, sp = some p0 → rp.length < p0.length) ∧
         (∀ b' ∈ pre, ∀ q, findPath grid pos (b'.y, b'.x) = .ok (some q) →
           rp.length < q.length)))
  | [], cb, sp, rb, rp => by
    intro h
    unfold findClosestBinLoop at h
    cases h
    exact ⟨by simp, Or.inl ⟨rfl, rfl⟩⟩
  | b :: rest, cb, sp, rb, rp => by
    intro h
    unfold findClosestBinLoop at h
    split at h
    · cases h
    · -- findPath to b returned `ok none`
      rename_i hb
      obtain ⟨H1, H2⟩ := findClosestBinLoop_spec pos grid rest cb sp rb rp h
      refine ⟨?_, ?_⟩
      · intro b' hb' q' hq'
        rcases List.mem_cons.mp hb' with rfl | hb'
        · rw [hb] at hq'; cases hq'
        · exact H1 b' hb' q' hq'
      · rcases H2 with hacc | ⟨pre, post, hL, hrb, hacc, hpre⟩
        · exact Or.inl hacc
        · refine Or.inr ⟨b :: pre, post, by simp [hL], hrb, hacc, ?_⟩
          intro b' hb' q' hq'
          rcases List.mem_cons.mp hb' with rfl | hb'
          · rw [hb] at hq'; cases hq'
          · exact hpre b' hb' q' hq'
    · -- findPath to b returned a path q
      rename_i q hb
      rcases sp with - | p0
      · -- accumulator empty: the improvement is taken
        simp only [if_true] at h
        obtain ⟨H1, H2⟩ := findClosestBinLoop_spec pos grid rest (some b) (some q) rb rp h
        rcases H2 with ⟨hb1, hq1⟩ | ⟨pre, post, hL, hrb, hacc, hpre⟩
        · cases hb1; cases hq1
          refine ⟨?_, Or.inr ⟨[], rest, rfl, hb, by rintro p0 ⟨⟩, by simp⟩⟩
          intro b' hb' q' hq'
          rcases List.mem_cons.mp hb' with rfl | hb'
          · rw [hb] at hq'; cases hq'; exact le_rfl
          · exact H1 b' hb' q' hq'
        · have hlt : rp.length < q.length := hacc q rfl
          refine ⟨?_, Or.inr ⟨b :: pre, post, by simp [hL], hrb, by rintro p0 ⟨⟩, ?_⟩⟩
          · intro b' hb' q' hq'
            rcases List.mem_cons.mp hb' with rfl | hb'
            · rw [hb] at hq'; cases hq'; exact le_of_lt hlt
            · exact H1 b' hb' q' hq'
          · intro b' hb' q' hq'
            rcases List.mem_cons.mp hb' with rfl | hb'
            · rw [hb] at hq'; cases hq'; exact hlt
            · exact hpre b' hb' q' hq'
      · by_cases himp : q.length < p0.length
        · -- strict improvement over the accumulator
          rw [if_pos (by simpa using himp)] at h
          obtain ⟨H1, H2⟩ := findClosestBinLoop_spec pos grid rest (some b) (some q) rb rp h
          rcases H2 with ⟨hb1, hq1⟩ | ⟨pre, post, hL, hrb, hacc, hpre⟩
          · cases hb1; cases hq1
            refine ⟨?_, Or.inr ⟨[], rest, rfl, hb, ?_, by simp⟩⟩
            · intro b' hb' q' hq'
              rcases List.mem_cons.mp hb' with rfl | hb'
              · rw [hb] at hq'; cases hq'; exact le_rfl
              · exact H1 b' hb' q' hq'
            · rintro p1 h1; cases h1; exact himp
          · have hlt : rp.length < q.length := hacc q rfl
            refine ⟨?_, Or.inr ⟨b :: pre, post, by simp [hL], hrb, ?_, ?_⟩⟩
            · intro b' hb' q' hq'
              rcases List.mem_cons.mp hb' with rfl | hb'
              · rw [hb] at hq'; cases hq'; exact le_of_lt hlt
              · exact H1 b' hb' q' hq'
            · rintro p1 h1; cases h1; exact lt_trans hlt himp
            · intro b' hb' q' hq'
              rcases List.mem_cons.mp hb' with rfl | hb'
              · rw [hb] at hq'; cases hq'; exact hlt
              · exact hpre b' hb' q' hq'
        · -- no improvement: the accumulator is kept
          rw [if_neg (by simpa using himp)] at h
          have hle : p0.length ≤ q.length := le_of_not_lt himp
          obtain ⟨H1, H2⟩ := findClosestBinLoop_spec pos grid rest cb (some p0) rb rp h
          refine ⟨?_, ?_⟩
          · intro b' hb' q' hq'
            rcases List.mem_cons.mp hb' with rfl | hb'
            · rw [hb] at hq'; cases hq'
              rcases H2 with ⟨-, hq1⟩ | ⟨-, -, -, -, hacc, -⟩
              · cases hq1; exact hle
              · exact le_trans (le_of_lt (hacc p0 rfl)) hle
            · exact H1 b' hb' q' hq'
          · rcases H2 with hacc | ⟨pre, post, hL, hrb, hacc, hpre⟩
            · exact Or.inl hacc
            · refine Or.inr ⟨b :: pre, post, by simp [hL], hrb, hacc, ?_⟩
              intro b' hb' q' hq'
              rcases List.mem_cons.mp hb' with rfl | hb'
              · rw [hb] at hq'; cases hq'
                exact lt_of_lt_of_le (hacc p0 rfl) hle
              · exact hpre b' hb' q' hq'

/-- C2: when `find_closest_bin` selects a bin, that bin's A*-returned path has
the least length in cells among all bins' paths (not the least accumulated
movement cost), and every bin listed before the selected one has a strictly
longer path or none at all — the first-listed bin wins ties. -/
theorem find_closest_bin_min_length_first (door : Door) (bins : List Entity) (grid : Grid)
    (d' : Door) (b : Entity) (hne : bins ≠ [])
    (h : door.find_closest_bin bins grid = .ok (d', some b)) :
    ∃ p pre post,
      findPath grid (door.y, door.x) (b.y, b.x) = .ok (some p) ∧
      d'.path_to_bin = some p ∧
      bins = pre ++ b :: post ∧
      (∀ b' ∈ bins, ∀ q, findPath grid (door.y, door.x) (b'.y, b'.x) = .ok (some q) →
        p.length ≤ q.length) ∧
      (∀ b' ∈ pre, ∀ q, findPath grid (door.y, door.x) (b'.y, b'.x) = .ok (some q) →
        p.length < q.length) := by
  unfold Door.find_closest_bin at h
  rw [if_neg (by simpa using hne)] at h
  split at h
  · cases h
  · rename_i b0 p hloop
    cases h
    obtain ⟨H1, H2⟩ := findClosestBinLoop_spec (door.y, door.x) grid bins none none b p hloop
    rcases H2 with ⟨h1, -⟩ | ⟨pre, post, hL, hrb, -, hpre⟩
    · cases h1
    · exact ⟨p, pre, post, hrb, rfl, hL, H1, hpre⟩
  · cases h

/-- C2 witness: spec scenario C in corridor form — a door at cell `(0,0)` and
two bins with equal-length (3-cell) paths; the resolver picks the bin listed
first. -/
theorem find_closest_bin_min_length_first_witness :
    ([demoBin, unreachableBin] : List Entity) ≠ [] ∧
    (Door.mkFresh 7 0 0).find_closest_bin [demoBin, unreachableBin] demoGrid
      = .ok (doorAssigned, some demoBin) ∧
    (∃ p pre post,
      findPath demoGrid ((Door.mkFresh 7 0 0).y, (Door.mkFresh 7 0 0).x)
        (demoBin.y, demoBin.x) = .ok (some p) ∧
      doorAssigned.path_to_bin = some p ∧
      ([demoBin, unreachableBin] : List Entity) = pre ++ demoBin :: post ∧
      (∀ b' ∈ ([demoBin, unreachableBin] : List Entity), ∀ q,
        findPath demoGrid ((Door.mkFresh 7 0 0).y, (Door.mkFresh 7 0 0).x) (b'.y, b'.x)
          = .ok (some q) → p.length ≤ q.length) ∧
      (∀ b' ∈ pre, ∀ q,
        findPath demoGrid ((Door.mkFresh 7 0 0).y, (Door.mkFresh 7 0 0).x) (b'.y, b'.x)
          = .ok (some q) → p.length < q.length)) :=
  ⟨by simp, rfl,
    find_closest_bin_min_length_first (Door.mkFresh 7 0 0) [demoBin, unreachableBin]
      demoGrid doorAssigned demoBin (by simp) rfl⟩


-- ### Search-loop invariant package

lemma popMin_eq_none {l : List (FVal × Cell)} : popMin l = none ↔ l = [] := by
  cases l with
  | nil => simp [popMin]
  | cons x xs =>
    constructor
    · intro h
      exfalso
      cases hxs : popMin xs with
      | none =>
        simp only [popMin, hxs] at h
        exact Option.noConfusion h
      | some p =>
        obtain ⟨m, rest⟩ := p
        simp only [popMin, hxs] at h
        by_cases hc : entryLtB m x = true
        · rw [if_pos hc] at h; exact absurd h (by simp)
        · rw [if_neg hc] at h; exact absurd h (by simp)
    · intro h; cases h

lemma popMin_perm : ∀ {l : List (FVal × Cell)} {m rest},
    popMin l = some (m, rest) → l.Perm (m :: rest) := by
  intro l
  induction l with
  | nil => intro m rest h; cases h
  | cons x xs ih =>
    intro m rest h
    cases hxs : popMin xs with
    | none =>
      simp only [popMin, hxs] at h
      cases h
      rw [popMin_eq_none.mp hxs]
    | some p =>
      obtain ⟨m', rest'⟩ := p
      simp only [popMin, hxs] at h
      by_cases hc : entryLtB m' x = true
      · rw [if_pos hc] at h
        cases h
        exact ((ih hxs).cons x).trans (List.Perm.swap m x rest')
      · rw [if_neg hc] at h
        cases h
        exact List.Perm.refl _

lemma popMin_mem {l : List (FVal × Cell)} {m rest}
    (h : popMin l = some (m, rest)) : m ∈ l :=
  (popMin_perm h).mem_iff.mpr (List.mem_cons_self m rest)

lemma popMin_length {l : List (FVal × Cell)} {m rest}
    (h : popMin l = some (m, rest)) : l.length = rest.length + 1 := by
  simpa using (popMin_perm h).length_eq

/-- King-move adjacency as the claims state it: the two cells differ by at
most one row and at most one column. -/
def KingAdj (a b : Cell) : Prop :=
  (b.1 - a.1).natAbs ≤ 1 ∧ (b.2 - a.2).natAbs ≤ 1

/-- A walkable path from `s` to `t`: non-empty, endpoints as given, king-move
adjacent consecutive cells, and every cell passable. -/
def IsWalkablePath (grid : Grid) (s t : Cell) (p : List Cell) : Prop :=
  p ≠ [] ∧ p.head? = some s ∧ p.getLast? = some t ∧
  List.Chain' KingAdj p ∧ ∀ c ∈ p, grid.Passable c

lemma getNeighbors_passable {grid : Grid} {a c : Cell}
    (h : c ∈ grid.getNeighbors a) : grid.Passable c :=
  ((mem_getNeighbors grid a c).mp h).2

lemma getNeighbors_kingAdj {grid : Grid} {a c : Cell}
    (h : c ∈ grid.getNeighbors a) : KingAdj a c := by
  obtain ⟨hd, -⟩ := (mem_getNeighbors grid a c).mp h
  simp only [directions, List.mem_cons, List.not_mem_nil, or_false, Prod.mk.injEq] at hd
  unfold KingAdj
  rcases hd with ⟨h1, h2⟩ | ⟨h1, h2⟩ | ⟨h1, h2⟩ | ⟨h1, h2⟩ | ⟨h1, h2⟩ | ⟨h1, h2⟩ | ⟨h1, h2⟩ | ⟨h1, h2⟩ <;> omega

lemma getNeighbors_ne {grid : Grid} {a c : Cell}
    (h : c ∈ grid.getNeighbors a) : c ≠ a := by
  obtain ⟨hd, -⟩ := (mem_getNeighbors grid a c).mp h
  simp only [directions, List.mem_cons, List.not_mem_nil, or_false, Prod.mk.injEq] at hd
  intro hca
  subst hca
  rcases hd with ⟨h1, h2⟩ | ⟨h1, h2⟩ | ⟨h1, h2⟩ | ⟨h1, h2⟩ | ⟨h1, h2⟩ | ⟨h1, h2⟩ | ⟨h1, h2⟩ | ⟨h1, h2⟩ <;> omega

lemma read_inbounds {grid : Grid} {c : Cell} (h : grid.InBounds c) :
    grid.read c.1 c.2 = .ok (grid.cell c.1 c.2) := by
  obtain ⟨h1, h2, h3, h4⟩ := h
  unfold Grid.read
  rw [if_pos ⟨by omega, h2, by omega, h4⟩, if_neg (by omega), if_neg (by omega)]

/-- Reachability invariant of the search state along the loop of
`Astar.find_path`: the hash mirrors the heap, heap nodes are pairwise
distinct and scored, closed cells are scored, `came_from` records passable
in-grid edges of the right cost whose parent is closed, every scored cell
other than the start has a parent, and the combined step count of any score
is bounded by the closed set, which makes the parent walk well-founded. -/
structure Inv (grid : Grid) (start : Cell) (st : AState) : Prop where
  hashEq : ∀ c, c ∈ st.hash ↔ ∃ e ∈ st.openH, e.2 = c
  nodupH : (st.openH.map Prod.snd).Nodup
  hashClosed : ∀ c ∈ st.hash, c ∉ st.closed
  gOpen : ∀ e ∈ st.openH, st.gmap e.2 ≠ none
  gClosed : ∀ c ∈ st.closed, st.gmap c ≠ none
  gStart : st.gmap start = some ⟨0, 0⟩
  cameStart : st.came start = none
  gOnlyCame : ∀ c, st.gmap c ≠ none → c = start ∨ st.came c ≠ none
  cameEdge : ∀ c p, st.came c = some p → p ∈ st.closed ∧ c ∈ grid.getNeighbors p ∧
    ∃ gc gp, st.gmap c = some gc ∧ st.gmap p = some gp ∧ gc = gp.add (stepCost p c)
  startInit : start ∈ st.closed ∨ (st.closed = ∅ ∧ st.openH.map Prod.snd = [start])
  wOpen : ∀ c gc, st.gmap c = some gc → c ∉ st.closed → gc.u + gc.d ≤ st.closed.card
  wClosed : ∀ c gc, st.gmap c = some gc → c ∈ st.closed → gc.u + gc.d + 1 ≤ st.closed.card

lemma inv_init (grid : Grid) (start goal : Cell) :
    Inv grid start (initState start goal) := by
  refine ⟨?_, ?_, ?_, ?_, ?_, ?_, ?_, ?_, ?_, ?_, ?_, ?_⟩
  · intro c
    simp [initState, eq_comm]
  · simp [initState]
  · intro c _
    simp [initState]
  · intro e he
    simp only [initState, List.mem_singleton] at he
    subst he
    simp [initState]
  · intro c hc
    simp [initState] at hc
  · simp [initState]
  · rfl
  · intro c hc
    dsimp only [initState] at hc
    by_cases h : c = start
    · exact Or.inl h
    · rw [if_neg h] at hc
      cases hc rfl
  · intro c p hp
    cases hp
  · exact Or.inr ⟨rfl, by simp [initState]⟩
  · intro c gc hgc _
    dsimp only [initState] at hgc
    by_cases h : c = start
    · rw [if_pos h] at hgc
      cases hgc
      simp
    · rw [if_neg h] at hgc
      cases hgc
  · intro c gc _ hc
    simp [initState] at hc

lemma inv_start_closed {grid : Grid} {start : Cell} {st : AState} (hInv : Inv grid start st)
    {c : Cell} (hc : c ∈ st.closed) : start ∈ st.closed := by
  rcases hInv.startInit with h | ⟨h, -⟩
  · exact h
  · rw [h] at hc
    cases hc

lemma stepCost_w (a b : Cell) : (stepCost a b).u + (stepCost a b).d = 1 := by
  unfold stepCost
  split <;> rfl

lemma inv_popClose {grid : Grid} {start : Cell} {st : AState} {e : FVal × Cell}
    {rest : List (FVal × Cell)}
    (hInv : Inv grid start st) (hpop : popMin st.openH = some (e, rest)) :
    e.2 ∈ st.hash ∧ e.2 ∉ st.closed ∧ st.gmap e.2 ≠ none ∧
    Inv grid start { st with openH := rest, hash := st.hash.erase e.2,
                             closed := insert e.2 st.closed } := by
  have hperm := popMin_perm hpop
  have hmem : e ∈ st.openH := hperm.mem_iff.mpr (List.mem_cons_self e rest)
  have hhash : e.2 ∈ st.hash := (hInv.hashEq e.2).mpr ⟨e, hmem, rfl⟩
  have hclosed : e.2 ∉ st.closed := hInv.hashClosed e.2 hhash
  have hmap : (st.openH.map Prod.snd).Perm (e.2 :: rest.map Prod.snd) := by
    simpa using hperm.map Prod.snd
  have hnodup : (e.2 :: rest.map Prod.snd).Nodup := hmap.nodup_iff.mp hInv.nodupH
  have hnotin : e.2 ∉ rest.map Prod.snd := (List.nodup_cons.mp hnodup).1
  have hrest : ∀ e' ∈ rest, e' ∈ st.openH := fun e' h =>
    hperm.mem_iff.mpr (List.mem_cons_of_mem e h)
  refine ⟨hhash, hclosed, hInv.gOpen e hmem, ?_⟩
  refine ⟨?_, (List.nodup_cons.mp hnodup).2, ?_, ?_, ?_, hInv.gStart, hInv.cameStart,
    hInv.gOnlyCame, ?_, ?_, ?_, ?_⟩
  · intro c
    simp only [Finset.mem_erase]
    constructor
    · rintro ⟨hne, hc⟩
      rcases (hInv.hashEq c).mp hc with ⟨e', he', rfl⟩
      have : e' ∈ (e :: rest) := hperm.mem_iff.mp he'
      rcases List.mem_cons.mp this with rfl | h
      · exact absurd rfl hne
      · exact ⟨e', h, rfl⟩
    · rintro ⟨e', he', rfl⟩
      refine ⟨?_, (hInv.hashEq e'.2).mpr ⟨e', hrest e' he', rfl⟩⟩
      intro hee
      exact hnotin (hee ▸ List.mem_map_of_mem Prod.snd he')
  · intro c hc
    have := Finset.mem_of_mem_erase hc
    have hne := Finset.ne_of_mem_erase hc
    intro hmem'
    rcases Finset.mem_insert.mp hmem' with h | h
    · exact hne h
    · exact hInv.hashClosed c this h
  · intro e' he'
    exact hInv.gOpen e' (hrest e' he')
  · intro c hc
    rcases Finset.mem_insert.mp hc with rfl | h
    · exact hInv.gOpen e hmem
    · exact hInv.gClosed c h
  · intro c p hp
    obtain ⟨h1, h2, h3⟩ := hInv.cameEdge c p hp
    exact ⟨Finset.mem_insert_of_mem h1, h2, h3⟩
  · rcases hInv.startInit with h | ⟨h, hsing⟩
    · exact Or.inl (Finset.mem_insert_of_mem h)
    · left
      have hps : (e.2 :: rest.map Prod.snd).Perm [start] := hmap.symm.trans (by rw [hsing])
      have hes : e.2 = start := by
        have := hps.mem_iff.mp (List.mem_cons_self e.2 _)
        simpa using this
      exact hes ▸ Finset.mem_insert_self e.2 _
  · intro c gc hgc hc
    have hcn : c ∉ st.closed := fun h => hc (Finset.mem_insert_of_mem h)
    exact le_trans (hInv.wOpen c gc hgc hcn) (Finset.card_le_card (Finset.subset_insert _ _))
  · intro c gc hgc hc
    rcases Finset.mem_insert.mp hc with hce | h
    · rw [Finset.card_insert_of_not_mem hclosed]
      exact Nat.add_le_add_right (hInv.wOpen c gc hgc (by rw [hce]; exact hclosed)) 1
    · exact le_trans (hInv.wClosed c gc hgc h) (Finset.card_le_card (Finset.subset_insert _ _))

lemma inv_update {grid : Grid} {start goal cur n : Cell} {gcur : GCost} {st : AState}
    (hInv : Inv grid start st) (hcur : cur ∈ st.closed) (hg : st.gmap cur = some gcur)
    (hn : n ∈ grid.getNeighbors cur) (hnc : n ∉ st.closed) :
    Inv grid start
      { st with
        came := fun c => if c = n then some cur else st.came c
        gmap := fun c => if c = n then some (gcur.add (stepCost cur n)) else st.gmap c
        fmap := fun c => if c = n then some ⟨gcur.add (stepCost cur n), hsqOf n goal⟩
                         else st.fmap c } := by
  have hstart : start ∈ st.closed := inv_start_closed hInv hcur
  have hns : n ≠ start := fun h => hnc (h ▸ hstart)
  have hncur : n ≠ cur := getNeighbors_ne hn
  refine ⟨hInv.hashEq, hInv.nodupH, hInv.hashClosed, ?_, ?_, ?_, ?_, ?_, ?_, ?_, ?_, ?_⟩
  · intro e he
    dsimp only
    split
    · simp
    · exact hInv.gOpen e he
  · intro c hc
    dsimp only
    split
    · simp
    · exact hInv.gClosed c hc
  · dsimp only
    rw [if_neg (fun h : start = n => hns h.symm)]
    exact hInv.gStart
  · dsimp only
    rw [if_neg (fun h : start = n => hns h.symm)]
    exact hInv.cameStart
  · intro c _
    dsimp only
    by_cases hcn : c = n
    · rw [if_pos hcn]
      exact Or.inr (by simp)
    · rw [if_neg hcn]
      refine hInv.gOnlyCame c ?_
      rename_i hne
      dsimp only at hne
      rw [if_neg hcn] at hne
      exact hne
  · intro c p hp
    dsimp only at hp ⊢
    by_cases hcn : c = n
    · rw [if_pos hcn] at hp
      cases hp
      subst hcn
      refine ⟨hcur, hn, gcur.add (stepCost cur c), gcur, by rw [if_pos rfl], ?_, rfl⟩
      rw [if_neg (fun h : cur = c => hncur h.symm)]
      exact hg
    · rw [if_neg hcn] at hp
      obtain ⟨h1, h2, gc, gp, h3, h4, h5⟩ := hInv.cameEdge c p hp
      have hpn : p ≠ n := fun h => hnc (h ▸ h1)
      exact ⟨h1, h2, gc, gp, by rw [if_neg hcn]; exact h3, by rw [if_neg hpn]; exact h4, h5⟩
  · exact Or.inl hstart
  · intro c gc hgc hc
    dsimp only at hgc
    by_cases hcn : c = n
    · rw [if_pos hcn] at hgc
      cases hgc
      have := hInv.wClosed cur gcur hg hcur
      have hw := stepCost_w cur n
      unfold GCost.add
      dsimp only
      omega
    · rw [if_neg hcn] at hgc
      exact hInv.wOpen c gc hgc hc
  · intro c gc hgc hc
    dsimp only at hgc
    have hcn : c ≠ n := fun h => hnc (h ▸ hc)
    rw [if_neg hcn] at hgc
    exact hInv.wClosed c gc hgc hc

lemma inv_push {grid : Grid} {start n : Cell} {fv : FVal} {st : AState}
    (hInv : Inv grid start st) (hstart : start ∈ st.closed) (hh : n ∉ st.hash)
    (hnc : n ∉ st.closed) (hgn : st.gmap n ≠ none) :
    Inv grid start { st with openH := st.openH ++ [(fv, n)], hash := insert n st.hash } := by
  have hnm : n ∉ st.openH.map Prod.snd := by
    intro hmem
    rcases List.mem_map.mp hmem with ⟨e, he, hee⟩
    exact hh ((hInv.hashEq n).mpr ⟨e, he, hee⟩)
  refine ⟨?_, ?_, ?_, ?_, hInv.gClosed, hInv.gStart, hInv.cameStart, hInv.gOnlyCame,
    hInv.cameEdge, Or.inl hstart, hInv.wOpen, hInv.wClosed⟩
  · intro c
    simp only [Finset.mem_insert, List.mem_append, List.mem_singleton]
    constructor
    · rintro (rfl | hc)
      · exact ⟨(fv, c), Or.inr rfl, rfl⟩
      · rcases (hInv.hashEq c).mp hc with ⟨e, he, rfl⟩
        exact ⟨e, Or.inl he, rfl⟩
    · rintro ⟨e, (he | rfl), rfl⟩
      · exact Or.inr ((hInv.hashEq e.2).mpr ⟨e, he, rfl⟩)
      · exact Or.inl rfl
  · rw [List.map_append]
    simp only [List.map_cons, List.map_nil]
    rw [List.nodup_append]
    exact ⟨hInv.nodupH, List.nodup_singleton n,
      fun a ha hb => hnm ((List.mem_singleton.mp hb) ▸ ha)⟩
  · intro c hc
    rcases Finset.mem_insert.mp hc with rfl | h
    · exact hnc
    · exact hInv.hashClosed c h
  · intro e he
    rcases List.mem_append.mp he with h | h
    · exact hInv.gOpen e h
    · rw [List.mem_singleton.mp h]
      exact hgn

lemma inv_relaxNbr {grid : Grid} {start goal cur n : Cell} {gcur : GCost} {st : AState}
    (hInv : Inv grid start st) (hcur : cur ∈ st.closed) (hg : st.gmap cur = some gcur)
    (hn : n ∈ grid.getNeighbors cur) :
    Inv grid start (relaxNbr goal cur gcur st n) ∧
    (relaxNbr goal cur gcur st n).closed = st.closed ∧
    (relaxNbr goal cur gcur st n).gmap cur = some gcur := by
  have hstart : start ∈ st.closed := inv_start_closed hInv hcur
  have hncur : n ≠ cur := getNeighbors_ne hn
  unfold relaxNbr
  by_cases hnc : n ∈ st.closed
  · rw [if_pos hnc]
    exact ⟨hInv, rfl, hg⟩
  · rw [if_neg hnc]
    dsimp only
    set tg := gcur.add (stepCost cur n) with htg
    by_cases himp : (match st.gmap n with
      | none => true
      | some gn => GCost.ltB tg gn) = true
    · rw [if_pos himp]
      have hupd := @inv_update _ _ goal _ _ _ _ hInv hcur hg hn hnc
      by_cases hh : n ∈ st.hash
      · rw [if_pos hh]
        refine ⟨hupd, rfl, ?_⟩
        dsimp only
        rw [if_neg (fun h : cur = n => hncur h.symm)]
        exact hg
      · rw [if_neg hh]
        have hpush := @inv_push _ _ _ ⟨tg, hsqOf n goal⟩ _ hupd hstart hh hnc
          (by dsimp only; rw [if_pos rfl]; simp)
        refine ⟨hpush, rfl, ?_⟩
        dsimp only
        rw [if_neg (fun h : cur = n => hncur h.symm)]
        exact hg
    · rw [if_neg himp]
      exact ⟨hInv, rfl, hg⟩

lemma inv_relaxFold {grid : Grid} {start goal cur : Cell} {gcur : GCost} :
    ∀ (ns : List Cell) (st : AState), (∀ n ∈ ns, n ∈ grid.getNeighbors cur) →
    Inv grid start st → cur ∈ st.closed → st.gmap cur = some gcur →
    Inv grid start (ns.foldl (relaxNbr goal cur gcur) st) ∧
    (ns.foldl (relaxNbr goal cur gcur) st).closed = st.closed
  | [], st, _, hInv, hcur, _ => ⟨hInv, rfl⟩
  | n :: ns, st, hmem, hInv, hcur, hg => by
    obtain ⟨hInv', hcl, hg'⟩ :=
      @inv_relaxNbr _ _ goal _ _ _ _ hInv hcur hg (hmem n (List.mem_cons_self n ns))
    obtain ⟨hfold, hfcl⟩ := inv_relaxFold ns (relaxNbr goal cur gcur st n)
      (fun m hm => hmem m (List.mem_cons_of_mem n hm)) hInv' (hcl ▸ hcur) hg'
    exact ⟨hfold, by rw [List.foldl_cons, hfcl, hcl]⟩

lemma reconstructAux_spec {grid : Grid} {start : Cell} {st : AState}
    (hInv : Inv grid start st) :
    ∀ (k : Nat) (c : Cell) (gc : GCost), st.gmap c = some gc → gc.u + gc.d = k →
    ∀ (fuel : Nat), k < fuel → ∀ (acc : List Cell),
    ∃ l, reconstructAux st.came start fuel c acc = .ok (l ++ acc) ∧ l ≠ [] ∧
      l.head? = some start ∧ l.getLast? = some c ∧
      List.Chain' (fun a b => b ∈ grid.getNeighbors a) l ∧
      ∀ x ∈ l, x = start ∨ grid.Passable x := by
  intro k
  induction k using Nat.strong_induction_on with
  | _ k ih =>
    intro c gc hgc hk fuel hfuel acc
    obtain ⟨fuel, rfl⟩ : ∃ f, fuel = f + 1 := ⟨fuel - 1, by omega⟩
    cases hcame : st.came c with
    | none =>
      have hcs : c = start := by
        rcases hInv.gOnlyCame c (by rw [hgc]; simp) with h | h
        · exact h
        · exact absurd hcame h
      subst hcs
      refine ⟨[c], ?_, by simp, rfl, rfl, by simp, by simp⟩
      simp [reconstructAux, hcame]
    | some p =>
      obtain ⟨hpClosed, hcNbr, gc2, gp, hgc2, hgp, hrel⟩ := hInv.cameEdge c p hcame
      rw [hgc] at hgc2
      obtain rfl := Option.some.inj hgc2
      have hww : gp.u + gp.d + 1 = k := by
        rw [← hk, hrel]
        have := stepCost_w p c
        unfold GCost.add
        dsimp only
        omega
      obtain ⟨l', hl', hne', hhead', hlast', hchain', hmem'⟩ :=
        ih (gp.u + gp.d) (by omega) p gp hgp rfl fuel (by omega) (c :: acc)
      refine ⟨l' ++ [c], ?_, by simp, ?_, by simp, ?_, ?_⟩
      · have hstep : reconstructAux st.came start (fuel + 1) c acc =
            reconstructAux st.came start fuel p (c :: acc) := by
          simp [reconstructAux, hcame]
        rw [hstep, hl']
        simp
      · rw [List.head?_append_of_ne_nil _ hne']
        exact hhead'
      · refine List.Chain'.append hchain' (List.chain'_singleton c) ?_
        intro x hx y hy
        rw [List.head?_cons] at hy
        cases hy
        have hxp : x = p := by
          rw [hlast'] at hx
          cases hx
          rfl
        rw [hxp]
        exact hcNbr
      · intro x hx
        rcases List.mem_append.mp hx with h | h
        · exact hmem' x h
        · rw [List.mem_singleton.mp h]
          exact Or.inr (getNeighbors_passable hcNbr)

lemma astarLoop_sound {grid : Grid} {start goal : Cell} :
    ∀ (fuel : Nat) (st : AState) (r : Except String (Option (List Cell))),
    Inv grid start st →
    astarLoop grid start goal fuel st = some r →
    r = .ok none ∨
    ∃ p, r = .ok (some p) ∧ p ≠ [] ∧ p.head? = some start ∧ p.getLast? = some goal ∧
      List.Chain' (fun a b => b ∈ grid.getNeighbors a) p ∧
      ∀ x ∈ p, x = start ∨ grid.Passable x := by
  intro fuel
  induction fuel with
  | zero => intro st r _ h; cases h
  | succ fuel ih =>
    intro st r hInv h
    cases hpop : popMin st.openH with
    | none =>
      simp only [astarLoop, hpop] at h
      cases h
      exact Or.inl rfl
    | some er =>
      obtain ⟨e, rest⟩ := er
      simp only [astarLoop, hpop] at h
      obtain ⟨hhash, hclosed, hgsome, hInv2⟩ := inv_popClose hInv hpop
      rw [if_pos hhash] at h
      rw [if_neg hclosed] at h
      obtain ⟨gc, hgc⟩ : ∃ gc, st.gmap e.2 = some gc := by
        cases hg : st.gmap e.2
        · exact absurd hg hgsome
        · exact ⟨_, rfl⟩
      by_cases hgoal : e.2 = goal
      · subst hgoal
        rw [if_pos rfl] at h
        have hwb : gc.u + gc.d + 1 ≤ (insert e.2 st.closed).card :=
          hInv2.wClosed e.2 gc hgc (Finset.mem_insert_self e.2 _)
        obtain ⟨l, hl, hlne, hlhead, hllast, hlchain, hlmem⟩ :=
          reconstructAux_spec hInv2 (gc.u + gc.d) e.2 gc hgc rfl
            ((insert e.2 st.closed).card + 1) (by omega) []
        unfold reconstructPath at h
        dsimp only at h
        rw [hl] at h
        simp only [List.append_nil, Except.map] at h
        cases h
        right
        exact ⟨l, rfl, hlne, hlhead, hllast, hlchain, hlmem⟩
      · rw [if_neg hgoal] at h
        simp only [relaxAll, hgc] at h
        obtain ⟨hInv3, -⟩ := @inv_relaxFold _ _ goal _ _ (grid.getNeighbors e.2) _
          (fun n hn => hn) hInv2 (Finset.mem_insert_self e.2 _) hgc
        exact ih _ r hInv3 h

/-- The finite set of in-bounds cells of a grid. -/
def gridUniv (grid : Grid) : Finset Cell :=
  Finset.Icc (0 : Int) ((grid.rows : Int) - 1) ×ˢ Finset.Icc (0 : Int) ((grid.cols : Int) - 1)

lemma mem_gridUniv {grid : Grid} {c : Cell} : c ∈ gridUniv grid ↔ grid.InBounds c := by
  unfold gridUniv Grid.InBounds
  rw [Finset.mem_product, Finset.mem_Icc, Finset.mem_Icc]
  omega

lemma card_gridUniv (grid : Grid) : (gridUniv grid).card = grid.rows * grid.cols := by
  unfold gridUniv
  rw [Finset.card_product, Int.card_Icc, Int.card_Icc]
  simp

/-- Termination measure of the search loop: heap size plus the number of
in-bounds cells never seen by the hash or the closed set. -/
def phi (grid : Grid) (st : AState) : Nat :=
  st.openH.length + ((gridUniv grid) \ (st.hash ∪ st.closed)).card

lemma relaxNbr_phi {grid : Grid} (goal cur : Cell) (gcur : GCost) (st : AState) (n : Cell)
    (hn : n ∈ grid.getNeighbors cur) :
    phi grid (relaxNbr goal cur gcur st n) ≤ phi grid st := by
  have hnin : n ∈ gridUniv grid :=
    mem_gridUniv.mpr (getNeighbors_passable hn).1
  unfold relaxNbr
  by_cases hnc : n ∈ st.closed
  · rw [if_pos hnc]
  · rw [if_neg hnc]
    dsimp only
    by_cases himp : (match st.gmap n with
      | none => true
      | some gn => GCost.ltB (gcur.add (stepCost cur n)) gn) = true
    · rw [if_pos himp]
      by_cases hh : n ∈ st.hash
      · rw [if_pos hh]
        exact le_of_eq rfl
      · rw [if_neg hh]
        unfold phi
        dsimp only
        have hmemdiff : n ∈ (gridUniv grid) \ (st.hash ∪ st.closed) :=
          Finset.mem_sdiff.mpr ⟨hnin, fun hm => by
            rcases Finset.mem_union.mp hm with h | h
            · exact hh h
            · exact hnc h⟩
        have hset : (gridUniv grid) \ (insert n st.hash ∪ st.closed) =
            ((gridUniv grid) \ (st.hash ∪ st.closed)).erase n := by
          ext x
          simp only [Finset.mem_sdiff, Finset.mem_union, Finset.mem_insert, Finset.mem_erase]
          tauto
        rw [hset, List.length_append, Finset.card_erase_of_mem hmemdiff]
        have hpos : 1 ≤ ((gridUniv grid) \ (st.hash ∪ st.closed)).card :=
          Finset.card_pos.mpr ⟨n, hmemdiff⟩
        simp only [List.length_singleton]
        omega
    · rw [if_neg himp]

lemma relaxFold_phi {grid : Grid} (goal cur : Cell) (gcur : GCost) :
    ∀ (ns : List Cell) (st : AState), (∀ n ∈ ns, n ∈ grid.getNeighbors cur) →
    phi grid (ns.foldl (relaxNbr goal cur gcur) st) ≤ phi grid st
  | [], st, _ => le_rfl
  | n :: ns, st, hmem => by
    rw [List.foldl_cons]
    exact le_trans
      (relaxFold_phi goal cur gcur ns _ (fun m hm => hmem m (List.mem_cons_of_mem n hm)))
      (relaxNbr_phi goal cur gcur st n (hmem n (List.mem_cons_self n ns)))

lemma pop_phi_close {grid : Grid} {st : AState} {e : FVal × Cell} {rest : List (FVal × Cell)}
    (hpop : popMin st.openH = some (e, rest)) :
    phi grid { st with openH := rest, hash := st.hash.erase e.2,
                       closed := insert e.2 st.closed } + 1 ≤ phi grid st := by
  have hlen := popMin_length hpop
  have hsub1 : (gridUniv grid) \ (st.hash.erase e.2 ∪ insert e.2 st.closed) ⊆
      (gridUniv grid) \ (st.hash ∪ st.closed) := by
    intro x hx
    rw [Finset.mem_sdiff] at hx ⊢
    refine ⟨hx.1, fun hm => hx.2 ?_⟩
    rcases Finset.mem_union.mp hm with h | h
    · by_cases hxe : x = e.2
      · refine Finset.mem_union_right _ ?_
        rw [hxe]
        exact Finset.mem_insert_self e.2 _
      · exact Finset.mem_union_left _ (Finset.mem_erase.mpr ⟨hxe, h⟩)
    · exact Finset.mem_union_right _ (Finset.mem_insert_of_mem h)
  unfold phi
  dsimp only
  have := Finset.card_le_card hsub1
  omega

lemma pop_phi_skip {grid : Grid} {st : AState} {e : FVal × Cell} {rest : List (FVal × Cell)}
    (hpop : popMin st.openH = some (e, rest)) (hec : e.2 ∈ st.closed) :
    phi grid { st with openH := rest, hash := st.hash.erase e.2 } + 1 ≤ phi grid st := by
  have hlen := popMin_length hpop
  have hset : st.hash.erase e.2 ∪ st.closed = st.hash ∪ st.closed := by
    ext x
    simp only [Finset.mem_union, Finset.mem_erase]
    constructor
    · rintro (⟨-, h⟩ | h)
      · exact Or.inl h
      · exact Or.inr h
    · rintro (h | h)
      · by_cases hxe : x = e.2
        · refine Or.inr ?_
          rw [hxe]
          exact hec
        · exact Or.inl ⟨hxe, h⟩
      · exact Or.inr h
  unfold phi
  dsimp only
  rw [hset]
  omega

lemma astarLoop_total {grid : Grid} {start goal : Cell} :
    ∀ (fuel : Nat) (st : AState), phi grid st < fuel →
    ∃ r, astarLoop grid start goal fuel st = some r := by
  intro fuel
  induction fuel with
  | zero => intro st h; omega
  | succ fuel ih =>
    intro st hphi
    cases hpop : popMin st.openH with
    | none => exact ⟨.ok none, by simp only [astarLoop, hpop]⟩
    | some er =>
      obtain ⟨e, rest⟩ := er
      by_cases hhash : e.2 ∈ st.hash
      · by_cases hclosed : e.2 ∈ st.closed
        · -- stale-entry skip branch
          obtain ⟨r, hr⟩ := ih { st with openH := rest, hash := st.hash.erase e.2 }
            (by have := @pop_phi_skip grid _ _ _ hpop hclosed; omega)
          refine ⟨r, ?_⟩
          simp only [astarLoop, hpop]
          rw [if_pos hhash, if_pos hclosed]
          exact hr
        · by_cases hgoal : e.2 = goal
          · refine ⟨(reconstructPath { st with openH := rest, hash := st.hash.erase e.2, closed := insert e.2 st.closed } start goal).map some, ?_⟩
            simp only [astarLoop, hpop]
            rw [if_pos hhash, if_neg hclosed, if_pos hgoal]
          · cases hg : st.gmap e.2 with
            | none =>
              refine ⟨.error "KeyError", ?_⟩
              simp only [astarLoop, hpop]
              rw [if_pos hhash, if_neg hclosed, if_neg hgoal]
              simp only [relaxAll, hg]
            | some gcur =>
              obtain ⟨r, hr⟩ := ih
                ((grid.getNeighbors e.2).foldl (relaxNbr goal e.2 gcur)
                  { st with openH := rest, hash := st.hash.erase e.2,
                            closed := insert e.2 st.closed })
                (by
                  have h1 := @relaxFold_phi grid goal e.2 gcur
                    (grid.getNeighbors e.2)
                    { st with openH := rest, hash := st.hash.erase e.2,
                              closed := insert e.2 st.closed }
                    (fun n hn => hn)
                  have h2 := @pop_phi_close grid _ _ _ hpop
                  omega)
              refine ⟨r, ?_⟩
              simp only [astarLoop, hpop]
              rw [if_pos hhash, if_neg hclosed, if_neg hgoal]
              simp only [relaxAll, hg]
              exact hr
      · refine ⟨.error "KeyError", ?_⟩
        simp only [astarLoop, hpop]
        rw [if_neg hhash]

lemma phi_initState (grid : Grid) (s t : Cell) :
    phi grid (initState s t) < astarFuel grid := by
  unfold phi initState astarFuel
  dsimp only
  have h1 : ((gridUniv grid) \ ({s} ∪ ∅)).card ≤ (gridUniv grid).card :=
    Finset.card_le_card Finset.sdiff_subset
  rw [card_gridUniv] at h1
  simp only [List.length_singleton]
  omega

lemma findPath_ok_of_passable {grid : Grid} {s t : Cell}
    (hs : grid.read s.1 s.2 = .ok 0) (ht : grid.read t.1 t.2 = .ok 0) :
    findPath grid s t = .ok none ∨
    ∃ p, findPath grid s t = .ok (some p) ∧ p ≠ [] ∧ p.head? = some s ∧
      p.getLast? = some t ∧ List.Chain' (fun a b => b ∈ grid.getNeighbors a) p ∧
      ∀ x ∈ p, x = s ∨ grid.Passable x := by
  obtain ⟨r, hr⟩ := @astarLoop_total grid s t (astarFuel grid)
    (initState s t) (phi_initState grid s t)
  have hfp : findPath grid s t = r := by
    simp only [findPath, hs, ht, hr]
    simp
  rcases astarLoop_sound (astarFuel grid) (initState s t) r (inv_init grid s t) hr with
    hnone | ⟨p, hp, h1, h2, h3, h4, h5⟩
  · exact Or.inl (hfp.trans hnone)
  · exact Or.inr ⟨p, hfp.trans hp, h1, h2, h3, h4, h5⟩

lemma findPath_some_spec {grid : Grid} {s t : Cell} {p : List Cell}
    (h : findPath grid s t = .ok (some p)) :
    grid.read s.1 s.2 = .ok 0 ∧ grid.read t.1 t.2 = .ok 0 ∧
    p ≠ [] ∧ p.head? = some s ∧ p.getLast? = some t ∧
    List.Chain' (fun a b => b ∈ grid.getNeighbors a) p ∧
    ∀ x ∈ p, x = s ∨ grid.Passable x := by
  unfold findPath at h
  split at h
  · cases h
  · rename_i v hrs
    split at h
    · cases h
    · rename_i hv
      have hv0 : v = 0 := not_not.mp hv
      subst hv0
      split at h
      · cases h
      · rename_i w hrt
        split at h
        · cases h
        · rename_i hw
          have hw0 : w = 0 := not_not.mp hw
          subst hw0
          split at h
          · cases h
          · rename_i r hl
            subst h
            rcases astarLoop_sound _ _ _ (inv_init grid s t) hl with
              hnone | ⟨p', hp', h1, h2, h3, h4, h5⟩
            · cases hnone
            · cases hp'
              exact ⟨hrs, hrt, h1, h2, h3, h4, h5⟩

lemma passable_of_read_zero {grid : Grid} {c : Cell} (hc : grid.InBounds c)
    (h : grid.read c.1 c.2 = .ok 0) : grid.Passable c := by
  rw [read_inbounds hc] at h
  exact ⟨hc, Except.ok.inj h⟩

-- ### C3 (corrected)
/-- C3 counterexample: with the out-of-range start `(-1, -1)` on a passable
1×1 grid, the blocked-endpoint check wraps around (numpy negative indexing)
and `find_path` returns a path containing the impassable cell `(-1, -1)`:
not every cell of a returned path is passable. -/
theorem path_validity_fails_on_wrapped_start :
    findPath gOne (-1, -1) (0, 0) = .ok (some [(-1, -1), (0, 0)]) ∧
    ¬ gOne.Passable (-1, -1) := by
  refine ⟨rfl, ?_⟩
  intro h
  exact absurd h.1 (by decide)

/-- C3 amended: provided the start and goal are within the grid's bounds,
every returned path starts at the start cell, ends at the goal cell, visits
only passable cells, and each consecutive pair is king-move adjacent. -/
theorem path_validity_inbounds (grid : Grid) (s t : Cell) (p : List Cell)
    (hs : grid.InBounds s) (_ht : grid.InBounds t)
    (h : findPath grid s t = .ok (some p)) :
    p.head? = some s ∧ p.getLast? = some t ∧ (∀ c ∈ p, grid.Passable c) ∧
    List.Chain' KingAdj p := by
  obtain ⟨hrs, -, -, hhead, hlast, hchain, hmem⟩ := findPath_some_spec h
  refine ⟨hhead, hlast, ?_, hchain.imp fun a b hab => getNeighbors_kingAdj hab⟩
  intro c hc
  rcases hmem c hc with rfl | hp
  · exact passable_of_read_zero hs hrs
  · exact hp

/-- C3 amended, witness: the corridor path on `demoGrid`. -/
theorem path_validity_inbounds_witness :
    demoGrid.InBounds (0, 0) ∧ demoGrid.InBounds (0, 2) ∧
    findPath demoGrid (0, 0) (0, 2) = .ok (some [(0, 0), (0, 1), (0, 2)]) ∧
    (([(0, 0), (0, 1), (0, 2)] : List Cell).head? = some (0, 0) ∧
     ([(0, 0), (0, 1), (0, 2)] : List Cell).getLast? = some (0, 2) ∧
     (∀ c ∈ ([(0, 0), (0, 1), (0, 2)] : List Cell), demoGrid.Passable c) ∧
     List.Chain' KingAdj [(0, 0), (0, 1), (0, 2)]) :=
  ⟨by decide, by decide, rfl,
    path_validity_inbounds demoGrid (0, 0) (0, 2) _ (by decide) (by decide) rfl⟩

-- ### C8 (corrected)
/-- C8 counterexample: the blocked-endpoint check reads the grid through
numpy's wrapping indexing — with the negative out-of-range start `(-1, -1)`
the read wraps to cell `(0, 0)` instead of treating the cell as impassable,
and the returned path contains the out-of-bounds cell `(-1, -1)`. -/
theorem wrapped_read_reaches_path :
    gOne.read (-1) (-1) = .ok (gOne.cell 0 0) ∧
    findPath gOne (-1, -1) (0, 0) = .ok (some [(-1, -1), (0, 0)]) ∧
    ¬ gOne.InBounds (-1, -1) := by
  refine ⟨rfl, rfl, ?_⟩
  intro h
  exact absurd h (by decide)

/-- C8 amended: neighbour generation is bounds-checked and returns only
in-bounds cells; when the start and goal are in bounds, the two endpoint
reads are ordinary unwrapped reads and every returned path stays within
bounds.  (With a negative out-of-range endpoint, however, the endpoint check
wraps around, as the counterexample shows.) -/
theorem inbounds_no_wrap (grid : Grid) (s t : Cell)
    (hs : grid.InBounds s) (ht : grid.InBounds t) :
    grid.read s.1 s.2 = .ok (grid.cell s.1 s.2) ∧
    grid.read t.1 t.2 = .ok (grid.cell t.1 t.2) ∧
    (∀ node c, c ∈ grid.getNeighbors node → grid.InBounds c) ∧
    ∀ p, findPath grid s t = .ok (some p) → ∀ c ∈ p, grid.InBounds c := by
  refine ⟨read_inbounds hs, read_inbounds ht,
    fun node c hc => (getNeighbors_passable hc).1, ?_⟩
  intro p hp c hc
  obtain ⟨-, -, -, -, -, -, hmem⟩ := findPath_some_spec hp
  rcases hmem c hc with rfl | hpass
  · exact hs
  · exact hpass.1

/-- C8 amended, witness on the corridor grid. -/
theorem inbounds_no_wrap_witness :
    demoGrid.InBounds (0, 0) ∧ demoGrid.InBounds (0, 2) ∧
    (demoGrid.read 0 0 = .ok (demoGrid.cell 0 0) ∧
     demoGrid.read 0 2 = .ok (demoGrid.cell 0 2) ∧
     (∀ node c, c ∈ demoGrid.getNeighbors node → demoGrid.InBounds c) ∧
     ∀ p, findPath demoGrid (0, 0) (0, 2) = .ok (some p) →
       ∀ c ∈ p, demoGrid.InBounds c) :=
  ⟨by decide, by decide,
    inbounds_no_wrap demoGrid (0, 0) (0, 2) (by decide) (by decide)⟩

-- ### C6 (corrected)
/-- C6 counterexample: with the out-of-range start `(-1, -1)` on the 1×1
grid, no walkable route exists (the start cell is impassable, being outside
the bounds), yet `find_path` does not return the absent result — the wrapped
endpoint read lets the search run and return a path. -/
theorem no_path_cases_fail_on_wrapped_start :
    (¬ ∃ p, IsWalkablePath gOne (-1, -1) (0, 0) p) ∧
    findPath gOne (-1, -1) (0, 0) = .ok (some [(-1, -1), (0, 0)]) := by
  refine ⟨?_, rfl⟩
  rintro ⟨p, -, hhead, -, -, hpass⟩
  have hmem : (-1, -1) ∈ p := by
    cases p with
    | nil => cases hhead
    | cons a l =>
      rw [List.head?_cons] at hhead
      cases hhead
      exact List.mem_cons_self _ _
  have := (hpass _ hmem).1
  exact absurd this (by decide)

/-- C6 amended: provided the start and goal are within bounds, `find_path`
returns the absent result (raising nothing) whenever the start cell is an
obstacle, or the goal cell is an obstacle, or no walkable route exists; the
three conditions produce the same absent value. -/
theorem no_path_cases_inbounds (grid : Grid) (s t : Cell)
    (hs : grid.InBounds s) (ht : grid.InBounds t) :
    (grid.cell s.1 s.2 ≠ 0 → findPath grid s t = .ok none) ∧
    (grid.cell t.1 t.2 ≠ 0 → findPath grid s t = .ok none) ∧
    ((¬ ∃ p, IsWalkablePath grid s t p) → findPath grid s t = .ok none) := by
  have hreads := read_inbounds hs
  have hreadt := read_inbounds ht
  have hblocked : ∀ v, grid.cell s.1 s.2 = v → v ≠ 0 → findPath grid s t = .ok none := by
    intro v hv hvne
    unfold findPath
    rw [hreads, hv]
    simp [hvne]
  have hgoalblocked : grid.cell t.1 t.2 ≠ 0 → findPath grid s t = .ok none := by
    intro hb
    by_cases hsb : grid.cell s.1 s.2 = 0
    · unfold findPath
      rw [hreads, hsb]
      simp only [ne_eq, not_true_eq_false, reduceIte]
      rw [hreadt]
      simp [hb]
    · exact hblocked _ rfl hsb
  refine ⟨fun h => hblocked _ rfl h, hgoalblocked, ?_⟩
  intro hnone
  by_cases hsb : grid.cell s.1 s.2 = 0
  · by_cases htb : grid.cell t.1 t.2 = 0
    · rcases findPath_ok_of_passable (by rw [hreads, hsb]) (by rw [hreadt, htb]) with
        h | ⟨p, hp, h1, h2, h3, h4, h5⟩
      · exact h
      · exfalso
        refine hnone ⟨p, h1, h2, h3, h4.imp fun a b hab => getNeighbors_kingAdj hab, ?_⟩
        intro c hc
        rcases h5 c hc with rfl | hpass
        · exact ⟨hs, hsb⟩
        · exact hpass
    · exact hgoalblocked htb
  · exact hblocked _ rfl hsb

/-- C6 amended, witness: the blocked corridor `gBlocked`, whose two passable
ends are mutually unreachable. -/
theorem no_path_cases_inbounds_witness :
    gBlocked.InBounds (0, 0) ∧ gBlocked.InBounds (0, 2) ∧
    ((gBlocked.cell 0 0 ≠ 0 → findPath gBlocked (0, 0) (0, 2) = .ok none) ∧
     (gBlocked.cell 0 2 ≠ 0 → findPath gBlocked (0, 0) (0, 2) = .ok none) ∧
     ((¬ ∃ p, IsWalkablePath gBlocked (0, 0) (0, 2) p) →
       findPath gBlocked (0, 0) (0, 2) = .ok none)) :=
  ⟨by decide, by decide,
    no_path_cases_inbounds gBlocked (0, 0) (0, 2) (by decide) (by decide)⟩

-- ### C4 amended
/-- Case split of `find_closest_bin`: either it selects a bin of the list and
overwrites both fields with that bin's A* path, or it returns the absent
result leaving the door untouched. -/
lemma find_closest_bin_cases (door : Door) (bins : List Entity) (grid : Grid)
    (d' : Door) (r : Option Entity)
    (h : door.find_closest_bin bins grid = .ok (d', r)) :
    (r = none ∧ d' = door) ∨
    (∃ b p, r = some b ∧ b ∈ bins ∧
      findPath grid (door.y, door.x) (b.y, b.x) = .ok (some p) ∧
      d' = { door with assigned_bin := some b.number, path_to_bin := some p }) := by
  unfold Door.find_closest_bin at h
  split at h
  · cases h
    exact Or.inl ⟨rfl, rfl⟩
  · split at h
    · cases h
    · rename_i b p hloop
      cases h
      obtain ⟨-, H2⟩ := findClosestBinLoop_spec (door.y, door.x) grid bins none none b p hloop
      rcases H2 with ⟨h1, -⟩ | ⟨pre, post, hL, hrb, -, -⟩
      · cases h1
      · exact Or.inr ⟨b, p, rfl, by rw [hL]; exact List.mem_append_right pre (List.mem_cons_self b post), hrb, rfl⟩
    · cases h
      exact Or.inl ⟨rfl, rfl⟩

/-- The door state reachable through resolution passes whose bins all come
from `S`: position fields intact, and either both assignment fields absent or
both set consistently with some bin of `S`. -/
def ResolvedOk (x y : Int) (S : List Entity) (d : Door) : Prop :=
  d.x = x ∧ d.y = y ∧
  ((d.assigned_bin = none ∧ d.path_to_bin = none) ∨
   (∃ b ∈ S, ∃ p, d.assigned_bin = some b.number ∧ d.path_to_bin = some p ∧ p ≠ [] ∧
      p.head? = some (y, x) ∧ p.getLast? = some (b.y, b.x)))

lemma resolvedOk_mono {x y : Int} {S S' : List Entity} {d : Door}
    (hS : ∀ b ∈ S, b ∈ S') (h : ResolvedOk x y S d) : ResolvedOk x y S' d := by
  obtain ⟨h1, h2, h3 | ⟨b, hb, p, hp⟩⟩ := h
  · exact ⟨h1, h2, Or.inl h3⟩
  · exact ⟨h1, h2, Or.inr ⟨b, hS b hb, p, hp⟩⟩

lemma resolvedOk_step {x y : Int} {S : List Entity} {d : Door}
    (h : ResolvedOk x y S d) (op : List Entity × Grid) :
    ResolvedOk x y (S ++ op.1) (applyResolve d op) := by
  obtain ⟨h1, h2, h3⟩ := h
  unfold applyResolve
  cases hc : d.find_closest_bin op.1 op.2 with
  | error e =>
    exact resolvedOk_mono (fun b hb => List.mem_append_left _ hb) ⟨h1, h2, h3⟩
  | ok dr =>
    obtain ⟨d', r⟩ := dr
    rcases find_closest_bin_cases d op.1 op.2 d' r hc with ⟨-, rfl⟩ | ⟨b, p, -, hb, hfp, rfl⟩
    · exact resolvedOk_mono (fun b hb => List.mem_append_left _ hb) ⟨h1, h2, h3⟩
    · obtain ⟨-, -, hne, hhead, hlast, -, -⟩ := findPath_some_spec hfp
      refine ⟨h1, h2, Or.inr ⟨b, List.mem_append_right S hb, p, rfl, rfl, hne, ?_, hlast⟩⟩
      rw [h1, h2] at hhead
      exact hhead

lemma resolvedOk_fold {x y : Int} :
    ∀ (ops : List (List Entity × Grid)) (d : Door) (S : List Entity),
    ResolvedOk x y S d →
    ResolvedOk x y (S ++ ops.foldr (fun op acc => op.1 ++ acc) []) (ops.foldl applyResolve d)
  | [], d, S, h => by simpa using h
  | op :: ops, d, S, h => by
    have hstep := resolvedOk_step h op
    have := resolvedOk_fold ops (applyResolve d op) (S ++ op.1) hstep
    rw [List.foldl_cons]
    refine resolvedOk_mono ?_ this
    intro b hb
    simp only [List.mem_append, List.foldr_cons] at hb ⊢
    tauto

/-- C4 amended: after any sequence of `find_closest_bin` resolution passes on
a freshly constructed door (the `assign_bin` operation excluded, since it
writes `assigned_bin` alone), `assigned_bin` is present iff `path_to_bin` is
present and non-empty, and then the path leads from the door's position to
the position of a bin with the assigned number from one of the passes. -/
theorem door_invariant_after_resolutions (num x y : Int)
    (ops : List (List Entity × Grid)) :
    ((ops.foldl applyResolve (Door.mkFresh num x y)).assigned_bin = none ∧
     (ops.foldl applyResolve (Door.mkFresh num x y)).path_to_bin = none) ∨
    (∃ op ∈ ops, ∃ b ∈ op.1, ∃ p,
      (ops.foldl applyResolve (Door.mkFresh num x y)).assigned_bin = some b.number ∧
      (ops.foldl applyResolve (Door.mkFresh num x y)).path_to_bin = some p ∧
      p ≠ [] ∧ p.head? = some (y, x) ∧ p.getLast? = some (b.y, b.x)) := by
  have hfold := resolvedOk_fold (x := x) (y := y) ops (Door.mkFresh num x y) []
    ⟨rfl, rfl, Or.inl ⟨rfl, rfl⟩⟩
  obtain ⟨-, -, h3 | ⟨b, hb, p, hp1, hp2, hp3, hp4, hp5⟩⟩ := hfold
  · exact Or.inl h3
  · right
    simp only [List.nil_append] at hb
    have hop : ∃ op ∈ ops, b ∈ op.1 := by
      clear hp1 hp2 hp3 hp4 hp5
      induction ops with
      | nil => cases hb
      | cons op ops ih =>
        simp only [List.foldr_cons, List.mem_append] at hb
        rcases hb with h | h
        · exact ⟨op, List.mem_cons_self op ops, h⟩
        · obtain ⟨op', hop', hbop'⟩ := ih h
          exact ⟨op', List.mem_cons_of_mem op hop', hbop'⟩
    obtain ⟨op, hop, hbop⟩ := hop
    exact ⟨op, hop, b, hbop, p, hp1, hp2, hp3, hp4, hp5⟩

-- ### C1 (code bug)
instance : DecidableRel KingAdj := fun a b =>
  inferInstanceAs (Decidable ((b.1 - a.1).natAbs ≤ 1 ∧ (b.2 - a.2).natAbs ≤ 1))

/-- The total movement cost of a path: one unit per cardinal step, one `√2`
per diagonal step, summed over consecutive cells. -/
def pathCost : List Cell → GCost
  | [] => ⟨0, 0⟩
  | [_] => ⟨0, 0⟩
  | a :: b :: rest => (stepCost a b).add (pathCost (b :: rest))

/-- Cell values of a 5×6 grid on which the search returns a path that is not
of minimal movement cost (`1` marks an obstacle). -/
def cexData : List Nat :=
  [0, 0, 0, 0, 0, 1,
   0, 1, 0, 1, 1, 0,
   1, 0, 0, 1, 0, 1,
   0, 1, 0, 1, 0, 0,
   0, 0, 1, 0, 0, 0]

/-- The 5×6 grid built from `cexData`. -/
def cexGrid : Grid :=
  { rows := 5, cols := 6, cell := fun r c => cexData.getD (r.toNat * 6 + c.toNat) 1 }

/-- The path `find_path` returns on `cexGrid` from `(0,0)` to `(4,5)`:
five cardinal and two diagonal steps, total cost `5 + 2√2 ≈ 7.83`. -/
def cexReturned : List Cell :=
  [(0, 0), (0, 1), (1, 2), (2, 2), (3, 2), (4, 3), (4, 4), (4, 5)]

/-- A cheaper walkable path on `cexGrid` between the same endpoints: three
cardinal and three diagonal steps, total cost `3 + 3√2 ≈ 7.24`. -/
def cexCheaper : List Cell :=
  [(0, 0), (1, 0), (2, 1), (3, 2), (4, 3), (4, 4), (4, 5)]

/-- C1: `find_path` can return a path that does not have minimal total
movement cost.  On `cexGrid` the cell `(2,1)` is first discovered from
`(1,2)` with cost `1 + 2√2` and pushed with that f-score; when `(1,0)` later
improves it to `1 + √2`, the push is skipped because the cell already sits in
`open_set_hash`, so its heap priority stays stale and above the goal's
eventual `5 + 2√2` entry.  The cheaper route through `(1,0), (2,1), (3,2)` is
never expanded and the search returns a path of cost `5 + 2√2` although a
walkable path of cost `3 + 3√2` exists. -/
theorem find_path_returns_suboptimal_path :
    findPath cexGrid (0, 0) (4, 5) = .ok (some cexReturned) ∧
    IsWalkablePath cexGrid (0, 0) (4, 5) cexCheaper ∧
    pathCost cexReturned = ⟨5, 2⟩ ∧ pathCost cexCheaper = ⟨3, 3⟩ ∧
    (pathCost cexCheaper).val < (pathCost cexReturned).val := by
  have hs2 : Real.sqrt 2 < 2 := by
    nlinarith [Real.sq_sqrt (show (0 : ℝ) ≤ 2 by norm_num), Real.sqrt_nonneg 2]
  refine ⟨rfl, ?_, rfl, rfl, ?_⟩
  · refine ⟨by decide, rfl, rfl, ?_, by decide⟩
    simp only [cexCheaper, List.chain'_cons, List.chain'_singleton, and_true]
    exact ⟨by decide, by decide, by decide, by decide, by decide, by decide⟩
  · rw [show pathCost cexCheaper = ⟨3, 3⟩ from rfl, show pathCost cexReturned = ⟨5, 2⟩ from rfl]
    unfold GCost.val
    push_cast
    nlinarith [hs2]

end BinDist
